import Mathlib

/-!
Verification development for the chain controller of the eos repository
(libraries/chain/include/eos/chain/chain_controller.hpp).

The repository sources under review provide the controller header: the
validation-steps bitmask, the inline scoped modifiers (with_skip_flags,
with_producing, without_pending_transactions), the register_type template
and the inline skip-flag predicates are translated directly from that
header.  The bodies of push_block, apply_transaction, the slot calculus
and update_last_irreversible_block live in a translation unit that is not
part of the sources under review; those are modelled from the design
specification (and from the doc comments of the header, which state the
slot-calculus semantics precisely).  Every such definition carries a doc
comment starting with "Modelled from the spec".

Machine integers: block numbers, ids, account names and timestamps are
modelled as Nat (seconds since epoch for timestamps); none of the modelled
arithmetic relies on wrap-around.
-/

namespace EosChain

/-- A reference to a block as the fork database ranks blocks: the block
number (encoded in the first bytes of the id) and the content-hash id. -/
structure BlockRef where
  num : Nat
  id  : Nat
deriving DecidableEq, Repr

/-- Modelled from the spec: the fork-database head-update comparison of
section 4.6 / invariant I3 (the body of fork_database::push_block is not
under the sources reviewed).  Block a beats block b when the number of a
exceeds the number of b; ties are broken by the smaller block id. -/
def fork_better (a b : BlockRef) : Bool :=
  b.num < a.num || (a.num == b.num && a.id < b.id)

/-- Modelled from the spec: inserting one block into the fork database
updates the head exactly when the new block beats the current head. -/
def fork_add_head (h b : BlockRef) : BlockRef :=
  if fork_better b h then b else h

/-- Modelled from the spec: the fork-database head after pushing a list of
validated blocks over a genesis head, in push order. -/
def fork_head (g : BlockRef) (bs : List BlockRef) : BlockRef :=
  bs.foldl fork_add_head g

theorem fork_better_iff (a b : BlockRef) :
    fork_better a b = true ↔ b.num < a.num ∨ (a.num = b.num ∧ a.id < b.id) := by
  simp [fork_better]

theorem fork_add_head_left_comm (g x y : BlockRef) :
    fork_add_head (fork_add_head g x) y = fork_add_head (fork_add_head g y) x := by
  obtain ⟨gn, gi⟩ := g
  obtain ⟨xn, xi⟩ := x
  obtain ⟨yn, yi⟩ := y
  simp only [fork_add_head]
  split_ifs with h1 h2 h3 h4 h5 h6 <;>
    simp only [fork_better_iff, not_or, not_and, not_lt] at * <;>
    first
      | rfl
      | (simp only [BlockRef.mk.injEq]; omega)
      | omega

/-- The ranking the head maximises: a is at most b when b has a greater
number, or the same number and an id at most that of a. -/
def fork_le (a b : BlockRef) : Prop :=
  a.num < b.num ∨ (a.num = b.num ∧ b.id ≤ a.id)

theorem fork_le_refl (a : BlockRef) : fork_le a a := by
  simp [fork_le]

theorem fork_le_trans {a b c : BlockRef} (h1 : fork_le a b) (h2 : fork_le b c) :
    fork_le a c := by
  simp only [fork_le] at *
  omega

theorem fork_le_add_left (g b : BlockRef) : fork_le g (fork_add_head g b) := by
  obtain ⟨gn, gi⟩ := g
  obtain ⟨bn, bi⟩ := b
  simp only [fork_add_head]
  split_ifs with h <;> simp only [fork_better_iff] at * <;> simp [fork_le] <;> omega

theorem fork_le_add_right (g b : BlockRef) : fork_le b (fork_add_head g b) := by
  obtain ⟨gn, gi⟩ := g
  obtain ⟨bn, bi⟩ := b
  simp only [fork_add_head]
  split_ifs with h <;> simp only [fork_better_iff, not_or, not_and, not_lt] at * <;>
    simp [fork_le] <;> omega

theorem fork_head_mem (bs : List BlockRef) : ∀ g, fork_head g bs ∈ g :: bs := by
  induction bs with
  | nil => intro g; simp [fork_head]
  | cons c rest ih =>
    intro g
    have h := ih (fork_add_head g c)
    rw [List.mem_cons] at h
    have hstep : fork_head g (c :: rest) = fork_head (fork_add_head g c) rest := rfl
    rcases h with h | h
    · by_cases hb : fork_better c g = true
      · rw [List.mem_cons, List.mem_cons]
        right; left
        rw [hstep, h]
        simp [fork_add_head, hb]
      · rw [List.mem_cons]
        left
        rw [hstep, h]
        simp [fork_add_head, hb]
    · rw [List.mem_cons, List.mem_cons]
      right; right
      rw [hstep]
      exact h

theorem fork_head_ge (bs : List BlockRef) :
    ∀ g, ∀ b ∈ g :: bs, fork_le b (fork_head g bs) := by
  induction bs with
  | nil =>
    intro g b hb
    simp only [List.mem_singleton] at hb
    subst hb
    exact fork_le_refl b
  | cons c rest ih =>
    intro g b hb
    have hg : fork_le (fork_add_head g c) (fork_head (fork_add_head g c) rest) :=
      ih (fork_add_head g c) _ (List.mem_cons_self _ _)
    simp only [List.mem_cons] at hb
    have hstep : fork_head g (c :: rest) = fork_head (fork_add_head g c) rest := rfl
    rcases hb with hb | hb | hb
    · subst hb
      rw [hstep]
      exact fork_le_trans (fork_le_add_left b c) hg
    · subst hb
      rw [hstep]
      exact fork_le_trans (fork_le_add_right g b) hg
    · rw [hstep]
      exact ih (fork_add_head g c) b (List.mem_cons_of_mem _ hb)

theorem fork_head_perm {bs1 bs2 : List BlockRef} (p : bs1.Perm bs2) :
    ∀ g, fork_head g bs1 = fork_head g bs2 := by
  induction p with
  | nil => intro g; rfl
  | cons x _ ih =>
    intro g
    simpa only [fork_head, List.foldl_cons] using ih (fork_add_head g x)
  | swap x y l =>
    intro g
    simp only [fork_head, List.foldl_cons]
    rw [fork_add_head_left_comm]
  | trans _ _ ih1 ih2 =>
    intro g
    exact (ih1 g).trans (ih2 g)

/-!
Slot calculus.  The bodies of get_slot_time and get_slot_at_time are not
under the sources reviewed; the header documents them exactly
(chain_controller.hpp lines 249 to 267): slot 0 maps to the default
time_point_sec (the epoch-zero sentinel, modelled as 0), and for N greater
than 0 the slot time is the Nth next block-interval-aligned time greater
than head_block_time.  Times are seconds since epoch; interval is the
block_interval configuration constant in seconds.
-/

/-- Modelled from the spec: get_slot_time (body not under the sources
reviewed; semantics from the doc comment of chain_controller.hpp lines
249 to 257 and spec section 4.1).  headTime is head_block_time in seconds,
interval is block_interval.  Slot 0 returns the epoch-zero sentinel; slot
N returns the Nth interval-aligned time strictly after head_block_time,
which is interval-aligned and at which exactly N slots have elapsed since
the slot holding the head block. -/
def get_slot_time (headTime interval slot_num : Nat) : Nat :=
  if slot_num = 0 then 0
  else (headTime / interval + slot_num) * interval

/-- Modelled from the spec: get_slot_at_time (body not under the sources
reviewed; semantics from the doc comment of chain_controller.hpp lines
259 to 267 and spec section 4.1): the greatest N with
get_slot_time N at most the given time, or 0 if none. -/
def get_slot_at_time (headTime interval when : Nat) : Nat :=
  if when < get_slot_time headTime interval 1 then 0
  else (when - get_slot_time headTime interval 1) / interval + 1

theorem get_slot_time_pos_eq (headTime interval N : Nat) (hN : N ≠ 0) :
    get_slot_time headTime interval N = (headTime / interval + N) * interval := by
  simp [get_slot_time, hN]

/-- Claim C5: for every slot number N greater than 0 and every controller
state (any head block time, any positive block interval),
get_slot_at_time applied to get_slot_time of N returns N. -/
theorem slot_round_trip (headTime interval N : Nat)
    (hi : 0 < interval) (hN : 0 < N) :
    get_slot_at_time headTime interval (get_slot_time headTime interval N) = N := by
  have h1 : get_slot_time headTime interval 1
      = (headTime / interval + 1) * interval :=
    get_slot_time_pos_eq _ _ 1 one_ne_zero
  have hNe : get_slot_time headTime interval N
      = (headTime / interval + N) * interval :=
    get_slot_time_pos_eq _ _ N (by omega)
  have hle : (headTime / interval + 1) * interval
      ≤ (headTime / interval + N) * interval :=
    Nat.mul_le_mul_right _ (by omega)
  rw [get_slot_at_time, hNe, h1, if_neg (by omega)]
  have hsub : (headTime / interval + N) * interval
      - (headTime / interval + 1) * interval = (N - 1) * interval := by
    rw [← Nat.sub_mul]
    congr 1
    omega
  rw [hsub, Nat.mul_div_cancel _ hi]
  omega

/-- Witness for claim C5 at headTime 10, interval 3, N 2. -/
theorem slot_round_trip_witness :
    0 < 3 ∧ 0 < 2 ∧ get_slot_at_time 10 3 (get_slot_time 10 3 2) = 2 :=
  ⟨by decide, by decide, slot_round_trip 10 3 2 (by decide) (by decide)⟩

/-- Claim C6: get_slot_time of 0 returns the epoch-zero sentinel (the
default time_point_sec, modelled as 0), and for every N greater than 0
get_slot_time of N returns a timestamp aligned to block_interval, at
least head_block_time, at which exactly N slots have elapsed since the
slot of the head block (the aligned time of the head slot plus N
intervals), and it is the unique aligned timestamp mapped back to N by
get_slot_at_time. -/
theorem slot_time_spec (headTime interval : Nat) :
    get_slot_time headTime interval 0 = 0 ∧
    ∀ N, 0 < interval → 0 < N →
      get_slot_time headTime interval N % interval = 0 ∧
      headTime ≤ get_slot_time headTime interval N ∧
      get_slot_time headTime interval N
        = headTime / interval * interval + N * interval ∧
      ∀ t, t % interval = 0 → get_slot_at_time headTime interval t = N →
        t = get_slot_time headTime interval N := by
  constructor
  · simp [get_slot_time]
  · intro N hi hN
    have hNe : get_slot_time headTime interval N
        = (headTime / interval + N) * interval :=
      get_slot_time_pos_eq _ _ N (by omega)
    have h1 : get_slot_time headTime interval 1
        = (headTime / interval + 1) * interval :=
      get_slot_time_pos_eq _ _ 1 one_ne_zero
    refine ⟨?_, ?_, ?_, ?_⟩
    · rw [hNe]
      exact Nat.mul_mod_left _ _
    · rw [hNe, Nat.add_mul]
      have hd := Nat.div_add_mod' headTime interval
      have hm : headTime % interval < interval := Nat.mod_lt _ hi
      have hNi : interval ≤ N * interval := Nat.le_mul_of_pos_left interval hN
      omega
    · rw [hNe, Nat.add_mul]
    · intro t ht hat
      rw [get_slot_at_time] at hat
      by_cases hlt : t < get_slot_time headTime interval 1
      · rw [if_pos hlt] at hat
        omega
      · rw [if_neg hlt] at hat
        push_neg at hlt
        have htm : t / interval * interval = t := by
          have := Nat.div_add_mod' t interval
          omega
        have hb : headTime / interval + 1 ≤ t / interval := by
          rw [h1] at hlt
          have hmul : (headTime / interval + 1) * interval
              ≤ t / interval * interval := by omega
          exact Nat.le_of_mul_le_mul_right hmul hi
        have hsub : t - (headTime / interval + 1) * interval
            = (t / interval - (headTime / interval + 1)) * interval := by
          rw [Nat.sub_mul]
          omega
        rw [h1, hsub, Nat.mul_div_cancel _ hi] at hat
        have hbN : t / interval = headTime / interval + N := by omega
        rw [hNe, ← htm, hbN]

/-- Witness for claim C6 at headTime 10, interval 3, N 2, t 15. -/
theorem slot_time_spec_witness :
    get_slot_time 10 3 0 = 0 ∧
    get_slot_time 10 3 2 % 3 = 0 ∧
    10 ≤ get_slot_time 10 3 2 ∧
    get_slot_time 10 3 2 = 10 / 3 * 3 + 2 * 3 ∧
    15 = get_slot_time 10 3 2 := by
  have h := slot_time_spec 10 3
  have h2 := h.2 2 (by decide) (by decide)
  exact ⟨h.1, h2.1, h2.2.1, h2.2.2.1, h2.2.2.2 15 (by decide) (by decide)⟩

/-- Claim C3: over a common genesis, once all validated blocks are pushed
the fork-database head is the same for any push order (any permutation of
the block sequence), it is one of the pushed blocks (or the genesis), and
no pushed block has a greater block number than the head, nor the same
number with a smaller block id. -/
theorem fork_choice_order_independent (g : BlockRef) (bs1 bs2 : List BlockRef)
    (hperm : bs1.Perm bs2) :
    fork_head g bs1 = fork_head g bs2 ∧
    fork_head g bs1 ∈ g :: bs1 ∧
    ∀ b ∈ g :: bs1,
      b.num < (fork_head g bs1).num ∨
        (b.num = (fork_head g bs1).num ∧ (fork_head g bs1).id ≤ b.id) :=
  ⟨fork_head_perm hperm g, fork_head_mem bs1 g, fun b hb => fork_head_ge bs1 g b hb⟩

/-- Witness for claim C3: three blocks pushed in two different orders over
genesis block 0; the head ties at number 2 and is broken by the smaller
id. -/
theorem fork_choice_order_independent_witness :
    fork_head ⟨0, 0⟩ [⟨1, 5⟩, ⟨2, 9⟩, ⟨2, 4⟩]
      = fork_head ⟨0, 0⟩ [⟨2, 4⟩, ⟨1, 5⟩, ⟨2, 9⟩] ∧
    fork_head ⟨0, 0⟩ [⟨1, 5⟩, ⟨2, 9⟩, ⟨2, 4⟩]
      ∈ (⟨0, 0⟩ : BlockRef) :: [⟨1, 5⟩, ⟨2, 9⟩, ⟨2, 4⟩] ∧
    ((2 : Nat) < (fork_head ⟨0, 0⟩ [⟨1, 5⟩, ⟨2, 9⟩, ⟨2, 4⟩]).num ∨
      ((2 : Nat) = (fork_head ⟨0, 0⟩ [⟨1, 5⟩, ⟨2, 9⟩, ⟨2, 4⟩]).num ∧
        (fork_head ⟨0, 0⟩ [⟨1, 5⟩, ⟨2, 9⟩, ⟨2, 4⟩]).id ≤ 9)) := by
  have h := fork_choice_order_independent ⟨0, 0⟩
      [⟨1, 5⟩, ⟨2, 9⟩, ⟨2, 4⟩] [⟨2, 4⟩, ⟨1, 5⟩, ⟨2, 9⟩] (by decide)
  exact ⟨h.1, h.2.1, h.2.2 ⟨2, 9⟩ (by decide)⟩

/-!
Controller state for the determinism and irreversibility claims.
-/

/-- The head-visible node state for the determinism claim: the head block,
the log of applied blocks on the current branch, and the last irreversible
block number. -/
structure NodeState where
  head : BlockRef
  applied_log : List BlockRef
  lib : Nat
deriving DecidableEq, Repr

/-- Modelled from the spec: push_block as a state transition of one chain
controller instance (the body is not under the sources reviewed).  The
transition is a pure function of the prior state and the incoming block:
a block that wins fork choice is applied on top of the current branch,
anything else leaves the head state unchanged. -/
def push_block_step (s : NodeState) (b : BlockRef) : NodeState :=
  if fork_better b s.head then
    { head := b, applied_log := s.applied_log ++ [b], lib := s.lib }
  else s

/-- Feeding an ordered block sequence to a controller instance started
from a genesis state. -/
def run_chain (g : NodeState) (bs : List BlockRef) : NodeState :=
  bs.foldl push_block_step g

/-- Modelled from the spec: the byte digest of the head state, encoded as
the sequence of all state components (head number and id, last
irreversible number, and the applied-block log). -/
def head_state_digest (s : NodeState) : List Nat :=
  s.head.num :: s.head.id :: s.lib ::
    (s.applied_log.map BlockRef.num ++ s.applied_log.map BlockRef.id)

/-- Claim C1: two controller instances started from the same genesis state
and fed the same ordered block sequence have byte-identical head state
digests at every height (after every prefix of the sequence). -/
theorem push_block_deterministic (s1 s2 : NodeState) (hgen : s1 = s2)
    (bs : List BlockRef) (n : Nat) :
    head_state_digest (run_chain s1 (bs.take n))
      = head_state_digest (run_chain s2 (bs.take n)) := by
  subst hgen
  rfl

/-- Witness for claim C1: two instances from the genesis head 0 fed one
block. -/
theorem push_block_deterministic_witness :
    head_state_digest (run_chain ⟨⟨0, 0⟩, [], 0⟩ (List.take 1 [⟨1, 7⟩]))
      = head_state_digest (run_chain ⟨⟨0, 0⟩, [], 0⟩ (List.take 1 [⟨1, 7⟩])) :=
  push_block_deterministic ⟨⟨0, 0⟩, [], 0⟩ ⟨⟨0, 0⟩, [], 0⟩ rfl [⟨1, 7⟩] 1

/-!
Last-irreversible-block monotonicity across the public controller
operations.
-/

/-- A signed block as the irreversibility machinery sees it: number, id
and signing producer account. -/
structure Block where
  num : Nat
  id : Nat
  producer : Nat
deriving DecidableEq, Repr

/-- Modelled from the spec: update_signing_producer records the number of
the newly applied block as the last confirmed block number of its signing
producer. -/
def set_last_confirmed (producers : List (Nat × Nat)) (who num : Nat) :
    List (Nat × Nat) :=
  producers.map fun p => if p.1 = who then (p.1, num) else p

/-- Modelled from the spec: the candidate for the new last-irreversible
block number (section 4.7): sort the per-producer last-confirmed block
numbers descending and take the entry at the two-thirds-plus-one
position, if there is one. -/
def irreversible_candidate (lastConfirmed : List Nat) : Option Nat :=
  let sorted := lastConfirmed.mergeSort fun a b => decide (b ≤ a)
  sorted.get? (2 * sorted.length / 3)

/-- Modelled from the spec: update_last_irreversible_block (body not under
the sources reviewed; spec section 4.7 and design note b): the stored
value advances to the candidate only when the candidate exceeds it, and
is left unchanged otherwise. -/
def update_last_irreversible_block (lib : Nat) (lastConfirmed : List Nat) : Nat :=
  match irreversible_candidate lastConfirmed with
  | some c => if lib < c then c else lib
  | none => lib

theorem lib_le_update (lib : Nat) (l : List Nat) :
    lib ≤ update_last_irreversible_block lib l := by
  unfold update_last_irreversible_block
  split
  · split <;> omega
  · exact Nat.le_refl _

/-- The controller state components touched by the public operations that
concern irreversibility: the genesis head, the applied branch, the
per-producer last-confirmed block numbers, the last irreversible block
number and the pending transaction queue. -/
structure CState where
  genesis : BlockRef
  branch : List BlockRef
  producers : List (Nat × Nat)
  lib : Nat
  pending : List Nat
deriving DecidableEq, Repr

/-- The current head block of a controller state. -/
def chead (s : CState) : BlockRef :=
  s.branch.getLast?.getD s.genesis

/-- Modelled from the spec: the state effects of applying one block
(section 4.7): extend the branch, record the signing producer, clear the
pending queue and run update_last_irreversible_block. -/
def apply_block_state (s : CState) (b : Block) : CState :=
  let producers := set_last_confirmed s.producers b.producer b.num
  { s with
      branch := s.branch ++ [⟨b.num, b.id⟩],
      producers := producers,
      lib := update_last_irreversible_block s.lib (producers.map Prod.snd),
      pending := [] }

/-- A public controller operation. -/
inductive ControllerOp where
  | op_push_block (b : Block)
  | op_push_transaction (t : Nat)
  | op_generate_block (producer : Nat)
  | op_pop_block
  | op_clear_pending
deriving DecidableEq, Repr

/-- Modelled from the spec: the effect of each public controller operation
on the controller state (the bodies are not under the sources reviewed).
push_block applies a block exactly when it wins fork choice;
generate_block builds a block on top of the head and applies it through
the same path; push_transaction appends to the pending queue; pop_block
rolls the latest block back off the branch; clear_pending discards the
pending queue.  None of the last three touches the last irreversible
block number. -/
def controller_step (s : CState) : ControllerOp → CState
  | .op_push_block b =>
    if fork_better ⟨b.num, b.id⟩ (chead s) then apply_block_state s b else s
  | .op_push_transaction t => { s with pending := s.pending ++ [t] }
  | .op_generate_block producer =>
    apply_block_state s ⟨(chead s).num + 1, (chead s).id + 1, producer⟩
  | .op_pop_block => { s with branch := s.branch.dropLast }
  | .op_clear_pending => { s with pending := [] }

/-- Claim C4: across every public controller operation, the last
irreversible block number never decreases: for any state and any
operation, the resulting value is at least the prior one. -/
theorem last_irreversible_monotone (s : CState) (op : ControllerOp) :
    s.lib ≤ (controller_step s op).lib := by
  cases op with
  | op_push_block b =>
    simp only [controller_step]
    split
    · simp only [apply_block_state]
      exact lib_le_update _ _
    · exact Nat.le_refl _
  | op_push_transaction t => exact Nat.le_refl _
  | op_generate_block producer =>
    simp only [controller_step, apply_block_state]
    exact lib_le_update _ _
  | op_pop_block => exact Nat.le_refl _
  | op_clear_pending => exact Nat.le_refl _

/-!
Transaction atomicity.  The body of apply_transaction and
_apply_transaction is not under the sources reviewed; the session
behaviour is modelled from the spec (sections 4.5 and 7): a transaction
session is opened on the database, the validation stages and per-message
apply handlers run in order, and any error rolls the session back and
fails upward.  The stages are abstracted as possibly failing transformers
of the database state, over an arbitrary database type.
-/

/-- Modelled from the spec: the validation stages and per-message apply
handlers of one transaction, run in their strict order against the
database, stopping at the first failure. -/
def run_stages {Db Err : Type} (stages : List (Db → Except Err Db)) (db : Db) :
    Except Err Db :=
  match stages with
  | [] => .ok db
  | stage :: rest =>
    match stage db with
    | .ok db2 => run_stages rest db2
    | .error e => .error e

/-- Modelled from the spec: apply_transaction (body not under the sources
reviewed): open an undo session, run the stages; on success keep the
mutated database (the session merges into its parent); on any failure
the session is rolled back, so the database reverts to the pre-call
state, and the error propagates to the caller. -/
def apply_transaction {Db Err : Type} (stages : List (Db → Except Err Db))
    (db : Db) : Except Err Unit × Db :=
  match run_stages stages db with
  | .ok db2 => (.ok (), db2)
  | .error e => (.error e, db)

/-- Claim C2: for every transaction whose application fails at any
validation or apply stage, the database state after the failed
apply_transaction call equals the state before it, and the error is the
one the failing stage reported. -/
theorem apply_transaction_atomic {Db Err : Type}
    (stages : List (Db → Except Err Db)) (db : Db) (e : Err)
    (hfail : (apply_transaction stages db).1 = .error e) :
    (apply_transaction stages db).2 = db := by
  unfold apply_transaction at hfail ⊢
  cases h : run_stages stages db with
  | ok db2 =>
    rw [h] at hfail
    simp at hfail
  | error e2 => rfl

/-- Witness for claim C2: a single stage failing with error 7 on database
state 5 leaves the database at 5. -/
theorem apply_transaction_atomic_witness :
    (apply_transaction [fun _ : Nat => (Except.error 7 : Except Nat Nat)] 5).1
        = Except.error 7 ∧
    (apply_transaction [fun _ : Nat => (Except.error 7 : Except Nat Nat)] 5).2 = 5 :=
  ⟨rfl, apply_transaction_atomic [fun _ : Nat => (Except.error 7 : Except Nat Nat)] 5 7 rfl⟩

/-!
The validation skip bitmask, translated from the validation_steps enum of
chain_controller.hpp lines 135 to 150, and the inline skip-flag
predicates of lines 327 to 328.
-/

def skip_nothing : Nat := 0
def skip_producer_signature : Nat := 1 <<< 0
def skip_transaction_signatures : Nat := 1 <<< 1
def skip_transaction_dupe_check : Nat := 1 <<< 2
def skip_fork_db : Nat := 1 <<< 3
def skip_block_size_check : Nat := 1 <<< 4
def skip_tapos_check : Nat := 1 <<< 5
def skip_authority_check : Nat := 1 <<< 6
def skip_merkle_check : Nat := 1 <<< 7
def skip_assert_evaluation : Nat := 1 <<< 8
def skip_undo_history_check : Nat := 1 <<< 9
def skip_producer_schedule_check : Nat := 1 <<< 10
def skip_validate : Nat := 1 <<< 11

/-- Translated from chain_controller.hpp line 327: the duplicate check
runs unless its skip bit is set. -/
def should_check_for_duplicate_transactions (skip_flags : Nat) : Bool :=
  skip_flags &&& skip_transaction_dupe_check == 0

/-- Translated from chain_controller.hpp line 328: the TAPoS check runs
unless its skip bit is set. -/
def should_check_tapos (skip_flags : Nat) : Bool :=
  skip_flags &&& skip_tapos_check == 0

/-- Modelled from the spec: the enum comment on skip_tapos_check notes
that it skips the expiration check as well; the validation pipeline gates
validate_expiration on the same predicate as validate_tapos. -/
def should_check_expiration (skip_flags : Nat) : Bool :=
  should_check_tapos skip_flags

/-- Claim C7: the validation skip bitmask assigns exactly the bit
positions of the table in the spec, bit 0 producer_signature through bit
11 validate, and setting bit 5 (tapos_check) disables both the TAPoS
check and the expiration check. -/
theorem validation_skip_bit_table :
    (skip_nothing = 0 ∧
     skip_producer_signature = 2 ^ 0 ∧
     skip_transaction_signatures = 2 ^ 1 ∧
     skip_transaction_dupe_check = 2 ^ 2 ∧
     skip_fork_db = 2 ^ 3 ∧
     skip_block_size_check = 2 ^ 4 ∧
     skip_tapos_check = 2 ^ 5 ∧
     skip_authority_check = 2 ^ 6 ∧
     skip_merkle_check = 2 ^ 7 ∧
     skip_assert_evaluation = 2 ^ 8 ∧
     skip_undo_history_check = 2 ^ 9 ∧
     skip_producer_schedule_check = 2 ^ 10 ∧
     skip_validate = 2 ^ 11) ∧
    ∀ flags, flags &&& skip_tapos_check ≠ 0 →
      should_check_tapos flags = false ∧ should_check_expiration flags = false := by
  refine ⟨by decide, ?_⟩
  intro flags h
  have ht : should_check_tapos flags = false := by
    simp only [should_check_tapos, beq_eq_false_iff_ne, ne_eq]
    exact h
  exact ⟨ht, ht⟩

/-- Witness for claim C7 at flags 32 (bit 5 set). -/
theorem validation_skip_bit_table_witness :
    (32 : Nat) &&& skip_tapos_check ≠ 0 ∧
    should_check_tapos 32 = false ∧ should_check_expiration 32 = false :=
  ⟨by decide, (validation_skip_bit_table.2 32 (by decide)).1,
    (validation_skip_bit_table.2 32 (by decide)).2⟩

/-!
Scoped modifiers.  The bodies of with_skip_flags, with_producing and
without_pending_transactions are inline in the header under review and
are translated directly.  Controller state is threaded explicitly; a
callable returns either its value or a thrown error, together with the
state it leaves behind, so both exit paths are covered by one shape.
-/

/-- The controller control bits touched by the scoped modifiers, over an
arbitrary remainder of the controller state. -/
structure ControllerFlags (δ : Type) where
  skip_flags : Nat
  producing : Bool
  rest : δ
deriving DecidableEq, Repr

/-- Translated from chain_controller.hpp lines 192 to 199: save
_skip_flags, install the requested flags, run f, and restore the saved
flags at scope exit on every exit path, returning what f returned. -/
def with_skip_flags {δ ε α : Type} (flags : Nat)
    (f : ControllerFlags δ → Except ε α × ControllerFlags δ)
    (s : ControllerFlags δ) : Except ε α × ControllerFlags δ :=
  let old_flags := s.skip_flags
  let r := f { s with skip_flags := flags }
  (r.1, { r.2 with skip_flags := old_flags })

/-- Translated from chain_controller.hpp lines 201 to 208: save
_producing, set it to true, run f, and restore the saved value at scope
exit on every exit path, returning what f returned. -/
def with_producing {δ ε α : Type}
    (f : ControllerFlags δ → Except ε α × ControllerFlags δ)
    (s : ControllerFlags δ) : Except ε α × ControllerFlags δ :=
  let old_producing := s.producing
  let r := f { s with producing := true }
  (r.1, { r.2 with producing := old_producing })

/-- A probe callable that returns normally after setting the _producing
bit directly. -/
def set_producing_probe (t : ControllerFlags Unit) :
    Except Unit Unit × ControllerFlags Unit :=
  (.ok (), { t with producing := true })

/-- Counterexample to claim C8 as stated: with_skip_flags restores only
_skip_flags, not _producing.  Running a function that sets _producing
under with_skip_flags leaves _producing changed after the scoped call:
before the call it is false, afterwards it is true. -/
theorem with_skip_flags_not_restore_producing :
    (⟨0, false, ()⟩ : ControllerFlags Unit).producing = false ∧
    (with_skip_flags 1 set_producing_probe ⟨0, false, ()⟩).2.producing = true :=
  ⟨rfl, rfl⟩

/-- Claim C8 (amended): for every function f and every exit path of f
(normal return or thrown error), each scoped guard restores the control
bit it modifies to its value before the scoped call, and the scoped call
returns the value f returned: with_skip_flags restores _skip_flags and
with_producing restores _producing. -/
theorem scoped_guards_restore {δ ε α : Type} (flags : Nat)
    (f : ControllerFlags δ → Except ε α × ControllerFlags δ)
    (s : ControllerFlags δ) :
    (with_skip_flags flags f s).2.skip_flags = s.skip_flags ∧
    (with_skip_flags flags f s).1 = (f { s with skip_flags := flags }).1 ∧
    (with_producing f s).2.producing = s.producing ∧
    (with_producing f s).1 = (f { s with producing := true }).1 :=
  ⟨rfl, rfl, rfl, rfl⟩

/-- The pending-transaction state the controller owns: the transactions
applied under the pending session, the FIFO queue of pending
transactions, and whether the pending session is open. -/
structure PendingState where
  applied : List Nat
  pending : List Nat
  session_open : Bool
deriving DecidableEq, Repr

/-- Modelled from the spec: push_transaction (body not under the sources
reviewed; spec sections 4.8 and 7): a transaction that validates is
applied on the pending session (opening it if needed) and appended to the
pending queue; a failing transaction reports the error synchronously and
does not affect state.  Validity is abstracted as a predicate on the
transaction. -/
def push_transaction (valid : Nat → Bool) (s : PendingState) (t : Nat) :
    Except Unit Unit × PendingState :=
  if valid t then
    (.ok (), { applied := s.applied ++ [t], pending := s.pending ++ [t],
               session_open := true })
  else
    (.error (), s)

/-- Translated from chain_controller.hpp lines 216 to 222: the scoped
exit of without_pending_transactions re-submits each previously pending
transaction through push_transaction in FIFO order, each inside its own
catch-all handler that discards the failure and moves on. -/
def repush_old_pending (valid : Nat → Bool) (old_pending : List Nat)
    (s : PendingState) : PendingState :=
  old_pending.foldl (fun st t => (push_transaction valid st t).2) s

/-- Translated from chain_controller.hpp lines 211 to 224
(without_pending_transactions): move the pending queue out, reset the
pending session, run f, and at scope exit (on every exit path) run the
re-submission loop over the moved-out queue. -/
def without_pending_transactions {ε α : Type} (valid : Nat → Bool)
    (f : PendingState → Except ε α × PendingState) (s : PendingState) :
    Except ε α × PendingState :=
  let old_pending := s.pending
  let r := f { s with pending := [], session_open := false }
  (r.1, repush_old_pending valid old_pending r.2)

theorem repush_old_pending_spec (valid : Nat → Bool) :
    ∀ (l : List Nat) (s : PendingState),
      (repush_old_pending valid l s).applied = s.applied ++ l.filter valid ∧
      (repush_old_pending valid l s).pending = s.pending ++ l.filter valid := by
  intro l
  induction l with
  | nil => intro s; simp [repush_old_pending]
  | cons t rest ih =>
    intro s
    by_cases h : valid t
    · have hstep : (push_transaction valid s t).2
          = ⟨s.applied ++ [t], s.pending ++ [t], true⟩ := by
        simp [push_transaction, h]
      have hi := ih ⟨s.applied ++ [t], s.pending ++ [t], true⟩
      simp only [repush_old_pending, List.foldl_cons] at hi ⊢
      rw [hstep]
      simp only [List.filter_cons, h, if_pos]
      constructor
      · rw [hi.1]
        simp
      · rw [hi.2]
        simp
    · have hstep : (push_transaction valid s t).2 = s := by
        simp [push_transaction, h]
      have hi := ih s
      simp only [repush_old_pending, List.foldl_cons] at hi ⊢
      rw [hstep]
      simp only [List.filter_cons, h]
      exact hi

/-- Claim C9: without_pending_transactions runs f on a state whose
pending queue is cleared and whose pending session is reset, returns
exactly the value f returned on every exit path (re-submission failures
never surface to the caller), and re-submits the previously pending
transactions in their original FIFO order, each failure ignored without
stopping the rest: the state after the call carries the effects of f
followed by the valid old transactions, in order. -/
theorem without_pending_transactions_spec {ε α : Type} (valid : Nat → Bool)
    (f : PendingState → Except ε α × PendingState) (s : PendingState) :
    (without_pending_transactions valid f s).1
        = (f { s with pending := [], session_open := false }).1 ∧
    (without_pending_transactions valid f s).2.applied
        = (f { s with pending := [], session_open := false }).2.applied
            ++ s.pending.filter valid ∧
    (without_pending_transactions valid f s).2.pending
        = (f { s with pending := [], session_open := false }).2.pending
            ++ s.pending.filter valid :=
  ⟨rfl, (repush_old_pending_spec valid s.pending _).1,
    (repush_old_pending_spec valid s.pending _).2⟩

/-!
Type registration, translated from the register_type template of
chain_controller.hpp lines 111 to 124.
-/

/-- The reflected struct description of a native type, as
GetStruct::type() returns it: name, base and the field list. -/
structure StructDescr where
  name : String
  base : String
  fields : List (String × String)
deriving DecidableEq, Repr

/-- The default value of the base_scope member of a default-constructed
type_object (a default-constructed account name). -/
def default_base_scope : String := ""

/-- A row of the type index, translated from the members register_type
assigns (scope, name, base, fields) plus base_scope, which register_type
never assigns. -/
structure type_object where
  scope : String
  name : String
  base : String
  base_scope : String
  fields : List (String × String)
deriving DecidableEq, Repr

/-- Lookup in the type index by the (scope, name) key, as
get by_scope_name does. -/
def get_by_scope_name (db : List type_object) (scope name : String) :
    Option type_object :=
  db.find? fun o => o.scope == scope && o.name == name

/-- Translated from chain_controller.hpp lines 111 to 124: register_type
creates a type_object whose scope is the given scope and whose name, base
and fields are copied from the struct description; base_scope is left at
its default-constructed value (the header carries a warning asking
whether it should be set). -/
def register_type (stru : StructDescr) (scope : String)
    (db : List type_object) : List type_object :=
  db ++ [{ scope := scope, name := stru.name, base := stru.base,
           base_scope := default_base_scope, fields := stru.fields }]

/-- Claim C10: after register_type returns, the database contains a
type_object retrievable by the (scope, struct-name) key whose name, base
and fields equal the struct description, and whose base_scope was never
assigned and so retains its default value.  (The key is assumed fresh:
the by_scope_name index is unique, so a duplicate key would make create
throw before inserting.) -/
theorem register_type_spec (stru : StructDescr) (scope : String)
    (db : List type_object)
    (hfresh : get_by_scope_name db scope stru.name = none) :
    get_by_scope_name (register_type stru scope db) scope stru.name
      = some { scope := scope, name := stru.name, base := stru.base,
               base_scope := default_base_scope, fields := stru.fields } := by
  unfold get_by_scope_name at hfresh ⊢
  unfold register_type
  rw [List.find?_append, hfresh]
  simp

/-- Witness for claim C10: registering a transfer struct in an empty
database. -/
theorem register_type_spec_witness :
    get_by_scope_name [] "eos" "transfer" = none ∧
    get_by_scope_name
        (register_type ⟨"transfer", "", [("from", "AccountName")]⟩ "eos" [])
        "eos" "transfer"
      = some { scope := "eos", name := "transfer", base := "",
               base_scope := default_base_scope,
               fields := [("from", "AccountName")] } :=
  ⟨rfl, register_type_spec ⟨"transfer", "", [("from", "AccountName")]⟩ "eos" [] rfl⟩

end EosChain
